import Mathlib

set_option maxHeartbeats 1000000

/-
Verification of the kinship relationship engine in `src/kinship.py`.

Python objects are embedded as follows: a `Person` object is identified by its
name (names are the unique keys of `Family.people`), its mutable fields live in
a `PersonState` record, and a Python `dict` is an insertion-ordered association
list.  A path string such as "PPS" is a `List Char`.  The BFS loop of
`Person.connections` runs on explicit fuel; a separate theorem shows the fuel
used is always sufficient, so the `Option` never degenerates.
-/

namespace Kinship

/-- Mutable fields of one `Person` object from `src/kinship.py` (lines 24-38):
gender, the ordered list of parents, and the optional spouse.  Parents and the
spouse are identified by name, the key under which every person is registered
in `Family.people`. -/
structure PersonState where
  gender : String
  parents : List String
  spouse : Option String
deriving DecidableEq

/-- The `Family.people` dictionary (line 139): an insertion-ordered map from a
person's name to that person's record. -/
structure Family where
  people : List (String × PersonState)
deriving DecidableEq

/-- The three input groups consumed by `Family.__init__` (lines 125-156):
`individuals` maps a name to a gender, `parents` maps a name to its list of
parent names, `couples` is a list of identifier lists. -/
structure Dataset where
  individuals : List (String × String)
  parents : List (String × List String)
  couples : List (List String)
deriving DecidableEq

/-- Python exceptions that `Family.__init__` and `Family.relation` can raise:
`KeyError` on a dictionary lookup of an unregistered name (the spec's
`UnknownIndividual`), `IndexError` on `pair[1]` of a one-element couple. -/
inductive Err where
  | keyError (name : String)
  | indexError
deriving DecidableEq

/-- Lookup in an insertion-ordered dictionary: value of the first entry whose
key matches, mirroring a Python `dict` access. -/
def dlookup {β : Type} : List (String × β) → String → Option β
  | [], _ => none
  | (k', v) :: t, k => if k' = k then some v else dlookup t k

/-- The Python `in` test on a dictionary's keys. -/
def keyMem {β : Type} (l : List (String × β)) (k : String) : Bool :=
  (dlookup l k).isSome

/-- Python `d[k] = v`: replace the value in place when the key is present,
append a new entry otherwise. -/
def dinsert {β : Type} : List (String × β) → String → β → List (String × β)
  | [], k, v => [(k, v)]
  | (k', v') :: t, k, v =>
    if k' = k then (k, v) :: t else (k', v') :: dinsert t k v

/-- Mutation of the object stored under an existing key (a no-op when the key
is absent; construction only calls it after a successful lookup). -/
def dupdate {β : Type} : List (String × β) → String → (β → β) → List (String × β)
  | [], _, _ => []
  | (k', v') :: t, k, f =>
    if k' = k then (k', f v') :: t else (k', v') :: dupdate t k f

/-- Reading `person.parents` through the family: the parents list of the
registered record, `[]` for an unregistered name (construction guarantees all
parent references are registered objects). -/
def parentsOf (fam : Family) (n : String) : List String :=
  match dlookup fam.people n with
  | some st => st.parents
  | none => []

/-- Reading `person.spouse` through the family. -/
def spouseOf (fam : Family) (n : String) : Option String :=
  match dlookup fam.people n with
  | some st => st.spouse
  | none => none

/-- Reading `person.gender`; the default is never reached on names validated by
`Family.relation`. -/
def genderOf (fam : Family) (n : String) : String :=
  match dlookup fam.people n with
  | some st => st.gender
  | none => ""

/-- The individuals one step `c` away from `x`: the parents for a `P` step,
the spouse (if any) for an `S` step, nothing for any other character. -/
def stepTargets (fam : Family) (c : Char) (x : String) : List String :=
  if c = 'P' then parentsOf fam x
  else if c = 'S' then (spouseOf fam x).toList
  else []

/-- All individuals reached from some member of `xs` by following the step
characters `cs` in order. -/
def pathEnds (fam : Family) (xs : List String) : List Char → List String
  | [] => xs
  | c :: cs => pathEnds fam (xs.foldr (fun x acc => stepTargets fam c x ++ acc) []) cs

/-- The path encoding of the spec (section 3): `cs` walks the parent/spouse
edges from `x` to `y` and takes at most one spouse step. -/
def ValidPath (fam : Family) (x : String) (cs : List Char) (y : String) : Prop :=
  y ∈ pathEnds fam [x] cs ∧ cs.count 'S' ≤ 1

instance (fam : Family) (x : String) (cs : List Char) (y : String) :
    Decidable (ValidPath fam x cs y) := by
  unfold ValidPath; infer_instance

/-- The `for parent in person.parents` loop of `connections` (lines 73-78):
`pp` is `personpath`; every parent not yet in `cdict` is recorded with path
`pp ++ "P"` and appended to the queue. -/
def stepParents (pp : List Char) :
    List String → List (String × List Char) → List String →
    List (String × List Char) × List String
  | [], cdict, queue => (cdict, queue)
  | par :: rest, cdict, queue =>
    if keyMem cdict par then stepParents pp rest cdict queue
    else stepParents pp rest (cdict ++ [(par, pp ++ ['P'])]) (queue ++ [par])

/-- One iteration of the BFS loop body of `connections` (lines 71-81): look up
the dequeued person's path, process the parents, then take the spouse step when
the path has no `S` yet, a spouse exists, and the spouse is not in `cdict`. -/
def stepPerson (fam : Family) (cdict : List (String × List Char))
    (queue : List String) (person : String) :
    List (String × List Char) × List String :=
  let pp := (dlookup cdict person).getD []
  let pr := stepParents pp (parentsOf fam person) cdict queue
  if 'S' ∈ pp then pr
  else
    match spouseOf fam person with
    | none => pr
    | some sp =>
      if keyMem pr.1 sp then pr
      else (pr.1 ++ [(sp, pp ++ ['S'])], pr.2 ++ [sp])

/-- The `while len(queue) != 0` loop of `connections` (lines 70-81), with an
explicit fuel argument; `none` means the fuel ran out before the queue emptied
(shown below to be impossible for the fuel `bfsFuel`). -/
def bfsAux (fam : Family) :
    Nat → List (String × List Char) → List String → Option (List (String × List Char))
  | _, cdict, [] => some cdict
  | 0, _, _ :: _ => none
  | fuel + 1, cdict, person :: rest =>
    let st := stepPerson fam cdict rest person
    bfsAux fam fuel st.1 st.2

/-- Every name that could ever be enqueued by the BFS: the start name together
with every parent reference and every spouse reference stored in the family. -/
def candidates (fam : Family) (s : String) : List String :=
  s :: fam.people.foldr (fun kv acc => kv.2.parents ++ kv.2.spouse.toList ++ acc) []

/-- Fuel that always suffices for the BFS to drain its queue. -/
def bfsFuel (fam : Family) (s : String) : Nat :=
  (candidates fam s).length + 1

/-- `Person.connections` (lines 58-82): BFS from `s` starting with
`cdict = {s: ""}` and `queue = [s]`.  The `getD []` default is dead: theorem
`bfsAux_total` below shows the fuel is always sufficient. -/
def connections (fam : Family) (s : String) : List (String × List Char) :=
  (bfsAux fam (bfsFuel fam s) [(s, [])] [s]).getD []

/-- The `sharedkeys` list of `relation_to` (lines 97-102): the keys of the
first mapping, in order, that are also keys of the second. -/
def sharedKeys (sc pc : List (String × List Char)) : List String :=
  (sc.map Prod.fst).filter (fun k => keyMem pc k)

/-- The `lcr` dictionary of `relation_to` (lines 105-106): each shared key is
mapped to the combined code `sc[k] ++ ":" ++ pc[k]`.  The shared keys are
pairwise distinct (they come from the keys of one BFS result), so building the
dictionary is a plain map. -/
def lcrList (sc pc : List (String × List Char)) (sh : List String) :
    List (String × List Char) :=
  sh.map (fun k => (k, ((dlookup sc k).getD []) ++ ':' :: ((dlookup pc k).getD [])))

/-- Python `min(values, key=len)` (line 109): the first element of least
length; the `[]` default for an empty list is dead, the call is guarded by
`len(lcr) == 0`. -/
def minByLen : List (List Char) → List Char
  | [] => []
  | h :: t => t.foldl (fun acc v => if v.length < acc.length then v else acc) h

/-- The combined codes `relation_to` chooses among: the values of `lcr`. -/
def combinedCodes (fam : Family) (a b : String) : List (List Char) :=
  (lcrList (connections fam a) (connections fam b)
    (sharedKeys (connections fam a) (connections fam b))).map Prod.snd

/-- `Person.relation_to` (lines 84-113).  `tbl` is the external term table of
`relationships.py`, which is not part of the sources; modelled from the spec:
a static lookup from a combined path code to a gender-indexed term.  The
source's `if sharedkeys.__len__ == 0` (line 103) compares a bound method with
an integer and is never true, so that early return is dead and only the
`len(lcr) == 0` check (line 107) can yield `None`. -/
def relation_to (tbl : List Char → Option (String → String)) (fam : Family)
    (a b : String) : Option String :=
  let sc := connections fam a
  let pc := connections fam b
  let sh := sharedKeys sc pc
  let lcr := lcrList sc pc sh
  if lcr.length = 0 then none
  else
    let lcrpath := minByLen (lcr.map Prod.snd)
    match tbl lcrpath with
    | some byGender => some (byGender (genderOf fam a))
    | none => some "distant relative"

/-- `Family.relation` (lines 158-173): `self.people[name]` lookups raise
`KeyError` for an unregistered name, then the work is delegated to
`relation_to`. -/
def relation (tbl : List Char → Option (String → String)) (fam : Family)
    (n1 n2 : String) : Except Err (Option String) :=
  match dlookup fam.people n1 with
  | none => Except.error (Err.keyError n1)
  | some _ =>
    match dlookup fam.people n2 with
    | none => Except.error (Err.keyError n2)
    | some _ => Except.ok (relation_to tbl fam n1 n2)

/-- First phase of `Family.__init__` (lines 141-143): register every
individual with its gender, empty parents and no spouse. -/
def initPeople (inds : List (String × String)) : List (String × PersonState) :=
  inds.foldl (fun acc kv => dinsert acc kv.1 ⟨kv.2, [], none⟩) []

/-- Inner loop of the second phase (lines 146-148): resolve each parent name
(raising `KeyError` when unregistered) and append it to the person's parents
list. -/
def addParentsFor (person : String) :
    List String → List (String × PersonState) → Except Err (List (String × PersonState))
  | [], people => Except.ok people
  | parent :: rest, people =>
    match dlookup people parent with
    | none => Except.error (Err.keyError parent)
    | some _ =>
      addParentsFor person rest
        (dupdate people person (fun st => { st with parents := st.parents ++ [parent] }))

/-- Second phase of `Family.__init__` (lines 144-148): for each entry of the
parents map, resolve the person (raising `KeyError` when unregistered) and add
all of their parents. -/
def addAllParents :
    List (String × List String) → List (String × PersonState) →
    Except Err (List (String × PersonState))
  | [], people => Except.ok people
  | (person, plist) :: rest, people =>
    match dlookup people person with
    | none => Except.error (Err.keyError person)
    | some _ =>
      match addParentsFor person plist people with
      | Except.error e => Except.error e
      | Except.ok people' => addAllParents rest people'

/-- Third phase of `Family.__init__` (lines 149-156): skip empty pairs; on a
one-element pair, resolve `pair[0]` (possible `KeyError`) and then fail with
`IndexError` on `pair[1]`; otherwise resolve both names and set each as the
other's spouse (extra elements beyond the first two are ignored). -/
def addCouples :
    List (List String) → List (String × PersonState) →
    Except Err (List (String × PersonState))
  | [], people => Except.ok people
  | [] :: rest, people => addCouples rest people
  | [a] :: _, people =>
    match dlookup people a with
    | none => Except.error (Err.keyError a)
    | some _ => Except.error Err.indexError
  | (a :: b :: _) :: rest, people =>
    match dlookup people a with
    | none => Except.error (Err.keyError a)
    | some _ =>
      match dlookup people b with
      | none => Except.error (Err.keyError b)
      | some _ =>
        addCouples rest
          (dupdate (dupdate people a (fun st => { st with spouse := some b }))
            b (fun st => { st with spouse := some a }))

/-- `Family.__init__` (lines 125-156): the three phases in order. -/
def buildFamily (d : Dataset) : Except Err Family :=
  match addAllParents d.parents (initPeople d.individuals) with
  | Except.error e => Except.error e
  | Except.ok p1 =>
    match addCouples d.couples p1 with
    | Except.error e => Except.error e
    | Except.ok p2 => Except.ok ⟨p2⟩

/-- Extract the family from a successful construction (used to name concrete
built families; the default is never used at the call sites below). -/
def famOf : Except Err Family → Family
  | Except.ok f => f
  | Except.error _ => ⟨[]⟩

/-- State-threaded BFS: the Python loop reads `person.parents` and
`person.spouse` from the heap of `Person` objects and returns that heap
untouched.  The family component is the heap. -/
def bfsAuxSt (fam : Family) :
    Nat → List (String × List Char) → List String →
    Option (List (String × List Char)) × Family
  | _, cdict, [] => (some cdict, fam)
  | 0, _, _ :: _ => (none, fam)
  | fuel + 1, cdict, person :: rest =>
    let st := stepPerson fam cdict rest person
    bfsAuxSt fam fuel st.1 st.2

/-- State-threaded `Person.connections`: result together with the heap after
the call. -/
def connectionsSt (fam : Family) (s : String) :
    List (String × List Char) × Family :=
  let r := bfsAuxSt fam (bfsFuel fam s) [(s, [])] [s]
  (r.1.getD [], r.2)

/-- State-threaded `Person.relation_to`: the two `connections` calls thread the
heap; the remaining statements only read it. -/
def relation_toSt (tbl : List Char → Option (String → String)) (fam : Family)
    (a b : String) : Option String × Family :=
  let scr := connectionsSt fam a
  let pcr := connectionsSt scr.2 b
  let sh := sharedKeys scr.1 pcr.1
  let lcr := lcrList scr.1 pcr.1 sh
  if lcr.length = 0 then (none, pcr.2)
  else
    let lcrpath := minByLen (lcr.map Prod.snd)
    match tbl lcrpath with
    | some byGender => (some (byGender (genderOf pcr.2 a)), pcr.2)
    | none => (some "distant relative", pcr.2)

/-- A family on which the BFS misses a validly reachable individual: from "x",
the node "z" is first discovered through the spouse path "SP", so the spouse
step from "z" to "y" is blocked, and "y" is reached by no other route. -/
def famA : Family := ⟨[
  ("x", ⟨"F", ["p1"], some "s"⟩),
  ("s", ⟨"M", ["z"], some "x"⟩),
  ("p1", ⟨"F", ["p2"], none⟩),
  ("p2", ⟨"F", ["z"], none⟩),
  ("z", ⟨"F", [], some "y"⟩),
  ("y", ⟨"M", [], some "z"⟩)]⟩

/-- Extension of `famA` with a long pure-parent chain to "y": the BFS records
"y" with the five-step path "PPPPP" although the four-step valid path "PPPS"
exists. -/
def famB : Family := ⟨[
  ("x", ⟨"F", ["p1", "q1"], some "s"⟩),
  ("s", ⟨"M", ["z"], some "x"⟩),
  ("p1", ⟨"F", ["p2"], none⟩),
  ("p2", ⟨"F", ["z"], none⟩),
  ("z", ⟨"F", [], some "y"⟩),
  ("q1", ⟨"F", ["q2"], none⟩),
  ("q2", ⟨"F", ["q3"], none⟩),
  ("q3", ⟨"F", ["q4"], none⟩),
  ("q4", ⟨"F", ["y"], none⟩),
  ("y", ⟨"M", [], some "z"⟩)]⟩

/-- A two-person family ("b" is a child of "a") used as a concrete witness
input. -/
def famW : Family := ⟨[("a", ⟨"F", [], none⟩), ("b", ⟨"M", ["a"], none⟩)]⟩

/-- An empty term table, usable in place of the external `relationships`
module. -/
def tbl0 : List Char → Option (String → String) := fun _ => none

/-- A dataset in which "a" occurs in two couple entries: construction leaves
"b" married to "a" while "a" is married to "c". -/
def D5 : Dataset := ⟨[("a", "F"), ("b", "M"), ("c", "F")], [], [["a", "b"], ["a", "c"]]⟩

/-- A dataset whose couple entries mention every individual at most once. -/
def D5w : Dataset := ⟨[("a", "F"), ("b", "M")], [], [["a", "b"]]⟩

/-- A dataset with a one-element couple entry naming a registered individual. -/
def D8 : Dataset := ⟨[("a", "F")], [], [["a"]]⟩

theorem dlookup_mem {β : Type} {l : List (String × β)} {k : String} {v : β}
    (h : dlookup l k = some v) : (k, v) ∈ l := by
  induction l with
  | nil => simp [dlookup] at h
  | cons hd t ih =>
    obtain ⟨k', v'⟩ := hd
    by_cases hk : k' = k
    · subst hk
      simp [dlookup] at h
      simp [h]
    · simp [dlookup, hk] at h
      exact List.mem_cons_of_mem _ (ih h)

theorem keyMem_of_mem {β : Type} {l : List (String × β)} {k : String} {v : β}
    (h : (k, v) ∈ l) : keyMem l k = true := by
  induction l with
  | nil => simp at h
  | cons hd t ih =>
    obtain ⟨k', v'⟩ := hd
    rcases List.mem_cons.mp h with h1 | h2
    · obtain ⟨h1k, _⟩ := Prod.mk.injEq .. ▸ h1
      simp [keyMem, dlookup, h1k.symm]
    · by_cases hk : k' = k
      · simp [keyMem, dlookup, hk]
      · simpa [keyMem, dlookup, hk] using ih h2

theorem dlookup_append {β : Type} (l m : List (String × β)) (k : String) :
    dlookup (l ++ m) k =
      match dlookup l k with
      | some v => some v
      | none => dlookup m k := by
  induction l with
  | nil => simp [dlookup]
  | cons hd t ih =>
    obtain ⟨k', v'⟩ := hd
    by_cases hk : k' = k <;> simp [dlookup, hk, ih]

theorem keyMem_append {β : Type} (l m : List (String × β)) (k : String) :
    keyMem (l ++ m) k = (keyMem l k || keyMem m k) := by
  unfold keyMem
  rw [dlookup_append]
  cases dlookup l k <;> simp

theorem keyMem_iff {β : Type} (l : List (String × β)) (k : String) :
    keyMem l k = true ↔ k ∈ l.map Prod.fst := by
  constructor
  · intro h
    unfold keyMem at h
    cases hd : dlookup l k with
    | none => simp [hd] at h
    | some v => exact List.mem_map.mpr ⟨(k, v), dlookup_mem hd, rfl⟩
  · intro h
    obtain ⟨⟨k', v⟩, hm, he⟩ := List.mem_map.mp h
    cases he
    exact keyMem_of_mem hm

theorem dlookup_dupdate {β : Type} (l : List (String × β)) (k x : String)
    (f : β → β) :
    dlookup (dupdate l k f) x =
      if x = k then (dlookup l k).map f else dlookup l x := by
  induction l with
  | nil => simp [dupdate, dlookup]
  | cons hd t ih =>
    obtain ⟨k', v'⟩ := hd
    by_cases hk : k' = k
    · subst hk
      by_cases hx : x = k'
      · subst hx
        simp [dupdate, dlookup]
      · have hx' : ¬ k' = x := fun h => hx h.symm
        simp [dupdate, dlookup, hx, hx']
    · by_cases hx : k' = x
      · subst hx
        have hk' : ¬ k' = k := hk
        have hxk : ¬ k' = k := hk
        simp [dupdate, dlookup, hk', hxk]
      · simp [dupdate, dlookup, hk, hx, ih]

theorem pathEnds_append (fam : Family) (cs ds : List Char) :
    ∀ xs, pathEnds fam xs (cs ++ ds) = pathEnds fam (pathEnds fam xs cs) ds := by
  induction cs with
  | nil => intro xs; simp [pathEnds]
  | cons c t ih => intro xs; simp [pathEnds, ih]

theorem mem_stepFold (fam : Family) (c : Char) {y z : String} :
    ∀ xs : List String, y ∈ xs → z ∈ stepTargets fam c y →
      z ∈ xs.foldr (fun x acc => stepTargets fam c x ++ acc) [] := by
  intro xs
  induction xs with
  | nil => intro h; simp at h
  | cons x t ih =>
    intro hy hz
    rcases List.mem_cons.mp hy with h1 | h2
    · subst h1
      exact List.mem_append.mpr (Or.inl hz)
    · exact List.mem_append.mpr (Or.inr (ih h2 hz))

theorem validPath_step (fam : Family) {s y z : String} {cs : List Char}
    (c : Char) (hmem : y ∈ pathEnds fam [s] cs) (hz : z ∈ stepTargets fam c y) :
    z ∈ pathEnds fam [s] (cs ++ [c]) := by
  rw [pathEnds_append]
  exact mem_stepFold fam c _ hmem hz

theorem validPath_parent (fam : Family) {s y p : String} {cs : List Char}
    (h : ValidPath fam s cs y) (hp : p ∈ parentsOf fam y) :
    ValidPath fam s (cs ++ ['P']) p := by
  obtain ⟨hmem, hcnt⟩ := h
  refine ⟨validPath_step fam 'P' hmem ?_, ?_⟩
  · simp [stepTargets, hp]
  · simpa [List.count_append] using hcnt

theorem validPath_spouse (fam : Family) {s y sp : String} {cs : List Char}
    (h : y ∈ pathEnds fam [s] cs) (hS : 'S' ∉ cs)
    (hsp : spouseOf fam y = some sp) :
    ValidPath fam s (cs ++ ['S']) sp := by
  refine ⟨validPath_step fam 'S' h ?_, ?_⟩
  · simp [stepTargets, hsp]
  · have h0 : cs.count 'S' = 0 := List.count_eq_zero.mpr hS
    simp [List.count_append, h0]

theorem stepParents_spec (pp : List Char) :
    ∀ (ps : List String) (cdict : List (String × List Char)) (queue : List String),
      ∃ extra, stepParents pp ps cdict queue = (cdict ++ extra, queue ++ extra.map Prod.fst) ∧
        ∀ e ∈ extra, e.1 ∈ ps ∧ e.2 = pp ++ ['P'] := by
  intro ps
  induction ps with
  | nil =>
    intro cdict queue
    exact ⟨[], by simp [stepParents], by simp⟩
  | cons par rest ih =>
    intro cdict queue
    by_cases hmem : keyMem cdict par = true
    · obtain ⟨extra, heq, hall⟩ := ih cdict queue
      refine ⟨extra, by simp [stepParents, hmem, heq], ?_⟩
      intro e he
      exact ⟨List.mem_cons_of_mem _ (hall e he).1, (hall e he).2⟩
    · rw [Bool.not_eq_true] at hmem
      obtain ⟨extra, heq, hall⟩ := ih (cdict ++ [(par, pp ++ ['P'])]) (queue ++ [par])
      refine ⟨(par, pp ++ ['P']) :: extra, ?_, ?_⟩
      · have hstep : stepParents pp (par :: rest) cdict queue =
            stepParents pp rest (cdict ++ [(par, pp ++ ['P'])]) (queue ++ [par]) := by
          simp [stepParents, hmem]
        rw [hstep, heq]
        simp
      · intro e he
        rcases List.mem_cons.mp he with h1 | h2
        · subst h1; exact ⟨List.mem_cons_self _ _, rfl⟩
        · exact ⟨List.mem_cons_of_mem _ (hall e h2).1, (hall e h2).2⟩

theorem stepPerson_spec (fam : Family) (cdict : List (String × List Char))
    (queue : List String) (person : String) :
    ∃ extra, stepPerson fam cdict queue person = (cdict ++ extra, queue ++ extra.map Prod.fst) ∧
      ∀ e ∈ extra,
        (e.1 ∈ parentsOf fam person ∧ e.2 = ((dlookup cdict person).getD []) ++ ['P']) ∨
        (spouseOf fam person = some e.1 ∧
          e.2 = ((dlookup cdict person).getD []) ++ ['S'] ∧
          'S' ∉ (dlookup cdict person).getD []) := by
  obtain ⟨extra, heq, hall⟩ :=
    stepParents_spec ((dlookup cdict person).getD []) (parentsOf fam person) cdict queue
  by_cases hS : 'S' ∈ (dlookup cdict person).getD []
  · refine ⟨extra, by simp [stepPerson, hS, heq], ?_⟩
    intro e he
    exact Or.inl (hall e he)
  · cases hsp : spouseOf fam person with
    | none =>
      refine ⟨extra, by simp [stepPerson, hS, hsp, heq], ?_⟩
      intro e he
      exact Or.inl (hall e he)
    | some sp =>
      by_cases hkm : keyMem (cdict ++ extra) sp = true
      · refine ⟨extra, by simp [stepPerson, hS, hsp, heq, hkm], ?_⟩
        intro e he
        exact Or.inl (hall e he)
      · rw [Bool.not_eq_true] at hkm
        refine ⟨extra ++ [(sp, (dlookup cdict person).getD [] ++ ['S'])], ?_, ?_⟩
        · simp [stepPerson, hS, hsp, heq, hkm]
        · intro e he
          rcases List.mem_append.mp he with h1 | h2
          · exact Or.inl (hall e h1)
          · have h2' := List.mem_singleton.mp h2
            subst h2'
            exact Or.inr ⟨rfl, rfl, hS⟩

theorem bfsAux_entries (fam : Family) (s : String) :
    ∀ (fuel : Nat) (cdict : List (String × List Char)) (queue : List String)
      (res : List (String × List Char)),
      bfsAux fam fuel cdict queue = some res →
      (∀ e ∈ cdict, ValidPath fam s e.2 e.1) →
      (∀ q ∈ queue, keyMem cdict q = true) →
      ∀ e ∈ res, ValidPath fam s e.2 e.1 := by
  intro fuel
  induction fuel with
  | zero =>
    intro cdict queue res hres hc hq
    cases queue with
    | nil => simp [bfsAux] at hres; subst hres; exact hc
    | cons person rest => simp [bfsAux] at hres
  | succ f ih =>
    intro cdict queue res hres hc hq
    cases queue with
    | nil => simp [bfsAux] at hres; subst hres; exact hc
    | cons person rest =>
      obtain ⟨extra, heq, hall⟩ := stepPerson_spec fam cdict rest person
      simp only [bfsAux, heq] at hres
      have hpmem : keyMem cdict person = true := hq person (List.mem_cons_self _ _)
      obtain ⟨pp0, hpp0⟩ := Option.isSome_iff_exists.mp hpmem
      have hppmem : (person, pp0) ∈ cdict := dlookup_mem hpp0
      have hppvalid : ValidPath fam s pp0 person := hc (person, pp0) hppmem
      have hgd : (dlookup cdict person).getD [] = pp0 := by rw [hpp0]; rfl
      refine ih (cdict ++ extra) (rest ++ extra.map Prod.fst) res hres ?_ ?_
      · intro e he
        rcases List.mem_append.mp he with h1 | h2
        · exact hc e h1
        · rcases hall e h2 with ⟨hp, hv⟩ | ⟨hsp, hv, hS⟩
          · rw [hgd] at hv
            obtain ⟨e1, e2⟩ := e
            simp only at hp hv ⊢
            subst hv
            exact validPath_parent fam hppvalid hp
          · rw [hgd] at hv hS
            obtain ⟨e1, e2⟩ := e
            simp only at hsp hv hS ⊢
            subst hv
            exact validPath_spouse fam hppvalid.1 hS hsp
      · intro q hqm
        rcases List.mem_append.mp hqm with h1 | h2
        · rw [keyMem_append]
          simp [hq q (List.mem_cons_of_mem _ h1)]
        · obtain ⟨⟨e1, e2⟩, hem, hef⟩ := List.mem_map.mp h2
          cases hef
          exact keyMem_of_mem (List.mem_append.mpr (Or.inr hem))

theorem bfsAux_extends (fam : Family) :
    ∀ (fuel : Nat) (cdict : List (String × List Char)) (queue : List String)
      (res : List (String × List Char)),
      bfsAux fam fuel cdict queue = some res → ∃ t, res = cdict ++ t := by
  intro fuel
  induction fuel with
  | zero =>
    intro cdict queue res hres
    cases queue with
    | nil => simp [bfsAux] at hres; exact ⟨[], by simp [hres]⟩
    | cons person rest => simp [bfsAux] at hres
  | succ f ih =>
    intro cdict queue res hres
    cases queue with
    | nil => simp [bfsAux] at hres; exact ⟨[], by simp [hres]⟩
    | cons person rest =>
      obtain ⟨extra, heq, _⟩ := stepPerson_spec fam cdict rest person
      simp only [bfsAux, heq] at hres
      obtain ⟨t, ht⟩ := ih _ _ _ hres
      exact ⟨extra ++ t, by simp [ht]⟩

/-- Count of candidate names not yet recorded in `cdict`; together with the
queue length this strictly decreases at every BFS iteration. -/
def unseen (cand : List String) (cdict : List (String × List Char)) : Nat :=
  (cand.dedup.filter (fun c => !(keyMem cdict c))).length

theorem keyMem_single {β : Type} (p c : String) (v : β) :
    keyMem [(p, v)] c = decide (p = c) := by
  by_cases h : p = c <;> simp [keyMem, dlookup, h]

theorem filter_and_length :
    ∀ (L : List String) (q : String → Bool) (p : String), L.Nodup → p ∈ L →
      q p = true →
      (L.filter (fun c => q c && !(decide (p = c)))).length + 1 = (L.filter q).length := by
  intro L
  induction L with
  | nil => intro q p _ hp; simp at hp
  | cons h t ih =>
    intro q p hnd hp hq
    have hnd' : t.Nodup := (List.nodup_cons.mp hnd).2
    have hht : h ∉ t := (List.nodup_cons.mp hnd).1
    by_cases hhp : h = p
    · subst hhp
      have hcongr : t.filter (fun c => q c && !(decide (h = c))) = t.filter q := by
        apply List.filter_congr
        intro c hc
        have : ¬ h = c := fun he => hht (he ▸ hc)
        simp [this]
      simp [List.filter_cons, hq, hcongr]
    · have hpt : p ∈ t := by
        rcases List.mem_cons.mp hp with h1 | h2
        · exact absurd h1.symm hhp
        · exact h2
      have hph : ¬ p = h := fun he => hhp he.symm
      by_cases hqh : q h = true
      · simp [List.filter_cons, hqh, hph, Nat.succ_eq_add_one]
        have := ih q p hnd' hpt hq
        omega
      · rw [Bool.not_eq_true] at hqh
        simp [List.filter_cons, hqh, hph]
        exact ih q p hnd' hpt hq

theorem unseen_append_new (cand : List String) (cdict : List (String × List Char))
    (p : String) (v : List Char) (hp : p ∈ cand) (hnew : keyMem cdict p = false) :
    unseen cand (cdict ++ [(p, v)]) + 1 = unseen cand cdict := by
  unfold unseen
  have hcongr : cand.dedup.filter (fun c => !(keyMem (cdict ++ [(p, v)]) c)) =
      cand.dedup.filter (fun c => (!(keyMem cdict c)) && !(decide (p = c))) := by
    apply List.filter_congr
    intro c _
    rw [keyMem_append, keyMem_single, Bool.not_or]
  rw [hcongr]
  exact filter_and_length cand.dedup (fun c => !(keyMem cdict c)) p
    (List.nodup_dedup cand) (List.mem_dedup.mpr hp) (by simp [hnew])

theorem stepParents_measure (cand : List String) (pp : List Char) :
    ∀ (ps : List String) (cdict : List (String × List Char)) (queue : List String),
      (∀ p ∈ ps, p ∈ cand) →
      unseen cand (stepParents pp ps cdict queue).1 +
        (stepParents pp ps cdict queue).2.length ≤
      unseen cand cdict + queue.length := by
  intro ps
  induction ps with
  | nil => intro cdict queue _; simp [stepParents]
  | cons par rest ih =>
    intro cdict queue hsub
    by_cases hmem : keyMem cdict par = true
    · simpa [stepParents, hmem] using
        ih cdict queue (fun p hp => hsub p (List.mem_cons_of_mem _ hp))
    · rw [Bool.not_eq_true] at hmem
      have hstep : stepParents pp (par :: rest) cdict queue =
          stepParents pp rest (cdict ++ [(par, pp ++ ['P'])]) (queue ++ [par]) := by
        simp [stepParents, hmem]
      rw [hstep]
      have h1 := ih (cdict ++ [(par, pp ++ ['P'])]) (queue ++ [par])
        (fun p hp => hsub p (List.mem_cons_of_mem _ hp))
      have h2 := unseen_append_new cand cdict par (pp ++ ['P'])
        (hsub par (List.mem_cons_self _ _)) hmem
      simp only [List.length_append, List.length_singleton] at h1
      omega

theorem stepPerson_measure (fam : Family) (cand : List String)
    (cdict : List (String × List Char)) (queue : List String) (person : String)
    (hpar : ∀ p ∈ parentsOf fam person, p ∈ cand)
    (hsp : ∀ sp, spouseOf fam person = some sp → sp ∈ cand) :
    unseen cand (stepPerson fam cdict queue person).1 +
      (stepPerson fam cdict queue person).2.length ≤
    unseen cand cdict + queue.length := by
  have hparents := stepParents_measure cand ((dlookup cdict person).getD [])
    (parentsOf fam person) cdict queue hpar
  by_cases hS : 'S' ∈ (dlookup cdict person).getD []
  · simpa [stepPerson, hS] using hparents
  · cases hspq : spouseOf fam person with
    | none => simpa [stepPerson, hS, hspq] using hparents
    | some sp =>
      set pr := stepParents ((dlookup cdict person).getD [])
        (parentsOf fam person) cdict queue with hpr
      by_cases hkm : keyMem pr.1 sp = true
      · simpa [stepPerson, hS, hspq, ← hpr, hkm] using hparents
      · rw [Bool.not_eq_true] at hkm
        have hres : stepPerson fam cdict queue person =
            (pr.1 ++ [(sp, (dlookup cdict person).getD [] ++ ['S'])], pr.2 ++ [sp]) := by
          simp [stepPerson, hS, hspq, ← hpr, hkm]
        rw [hres]
        have h2 := unseen_append_new cand pr.1 sp
          ((dlookup cdict person).getD [] ++ ['S']) (hsp sp hspq) hkm
        simp only [List.length_append, List.length_singleton]
        omega

theorem mem_candAux :
    ∀ (people : List (String × PersonState)) (k : String) (st : PersonState),
      (k, st) ∈ people → ∀ x, x ∈ st.parents ++ st.spouse.toList →
      x ∈ people.foldr (fun kv acc => kv.2.parents ++ kv.2.spouse.toList ++ acc) [] := by
  intro people
  induction people with
  | nil => intro k st h; simp at h
  | cons hd t ih =>
    intro k st hmem x hx
    rcases List.mem_cons.mp hmem with h1 | h2
    · subst h1
      simp only [List.foldr_cons]
      exact List.mem_append.mpr (Or.inl hx)
    · simp only [List.foldr_cons]
      exact List.mem_append.mpr (Or.inr (ih k st h2 x hx))

theorem parentsOf_sub_candidates (fam : Family) (s person : String) :
    ∀ p ∈ parentsOf fam person, p ∈ candidates fam s := by
  intro p hp
  unfold parentsOf at hp
  cases hd : dlookup fam.people person with
  | none => rw [hd] at hp; simp at hp
  | some st =>
    rw [hd] at hp
    apply List.mem_cons_of_mem
    exact mem_candAux fam.people person st (dlookup_mem hd) p
      (List.mem_append.mpr (Or.inl hp))

theorem spouseOf_mem_candidates (fam : Family) (s person sp : String)
    (h : spouseOf fam person = some sp) : sp ∈ candidates fam s := by
  unfold spouseOf at h
  cases hd : dlookup fam.people person with
  | none => rw [hd] at h; simp at h
  | some st =>
    rw [hd] at h
    have h' : st.spouse = some sp := h
    apply List.mem_cons_of_mem
    refine mem_candAux fam.people person st (dlookup_mem hd) sp ?_
    simp [h']

theorem bfsAux_isSome (fam : Family) (s : String) :
    ∀ (fuel : Nat) (cdict : List (String × List Char)) (queue : List String),
      unseen (candidates fam s) cdict + queue.length ≤ fuel →
      (bfsAux fam fuel cdict queue).isSome = true := by
  intro fuel
  induction fuel with
  | zero =>
    intro cdict queue hle
    have : queue.length = 0 := by omega
    rw [List.length_eq_zero.mp this]
    simp [bfsAux]
  | succ f ih =>
    intro cdict queue hle
    cases queue with
    | nil => simp [bfsAux]
    | cons person rest =>
      have hm := stepPerson_measure fam (candidates fam s) cdict rest person
        (parentsOf_sub_candidates fam s person)
        (fun sp h => spouseOf_mem_candidates fam s person sp h)
      simp only [List.length_cons] at hle
      simp only [bfsAux]
      exact ih _ _ (by omega)

theorem bfsAux_total (fam : Family) (s : String) :
    (bfsAux fam (bfsFuel fam s) [(s, [])] [s]).isSome = true := by
  apply bfsAux_isSome fam s
  have h1 : unseen (candidates fam s) [(s, [])] ≤ (candidates fam s).length := by
    calc unseen (candidates fam s) [(s, [])] ≤ (candidates fam s).dedup.length :=
          List.length_filter_le _ _
      _ ≤ (candidates fam s).length := (List.dedup_sublist _).length_le
  simp only [List.length_singleton, bfsFuel]
  omega

theorem bfsAux_eq_connections (fam : Family) (s : String) :
    bfsAux fam (bfsFuel fam s) [(s, [])] [s] = some (connections fam s) := by
  obtain ⟨r, hr⟩ := Option.isSome_iff_exists.mp (bfsAux_total fam s)
  rw [hr]
  simp [connections, hr]

theorem connections_entries (fam : Family) (s : String) :
    ∀ e ∈ connections fam s, ValidPath fam s e.2 e.1 := by
  intro e he
  refine bfsAux_entries fam s (bfsFuel fam s) [(s, [])] [s] (connections fam s)
    (bfsAux_eq_connections fam s) ?_ ?_ e he
  · intro e' he'
    have : e' = (s, []) := List.mem_singleton.mp he'
    subst this
    exact ⟨by simp [pathEnds], by simp⟩
  · intro q hq
    have : q = s := List.mem_singleton.mp hq
    subst this
    simp [keyMem, dlookup]

theorem connections_head (fam : Family) (s : String) :
    ∃ t, connections fam s = (s, []) :: t := by
  obtain ⟨t, ht⟩ := bfsAux_extends fam (bfsFuel fam s) [(s, [])] [s]
    (connections fam s) (bfsAux_eq_connections fam s)
  exact ⟨t, by simpa using ht⟩

theorem bfsAuxSt_frame (fam : Family) :
    ∀ (fuel : Nat) (cdict : List (String × List Char)) (queue : List String),
      (bfsAuxSt fam fuel cdict queue).2 = fam := by
  intro fuel
  induction fuel with
  | zero => intro cdict queue; cases queue <;> simp [bfsAuxSt]
  | succ f ih =>
    intro cdict queue
    cases queue with
    | nil => simp [bfsAuxSt]
    | cons person rest =>
      simp only [bfsAuxSt]
      exact ih _ _

theorem connectionsSt_frame (fam : Family) (s : String) :
    (connectionsSt fam s).2 = fam := by
  simp [connectionsSt, bfsAuxSt_frame]

theorem relation_toSt_frame (tbl : List Char → Option (String → String))
    (fam : Family) (a b : String) : (relation_toSt tbl fam a b).2 = fam := by
  have h1 : (connectionsSt fam a).2 = fam := connectionsSt_frame fam a
  have h2 : (connectionsSt (connectionsSt fam a).2 b).2 = (connectionsSt fam a).2 :=
    connectionsSt_frame _ b
  simp only [relation_toSt]
  split
  · simpa using h2.trans h1
  · split <;> simpa using h2.trans h1

theorem minFold_mem :
    ∀ (t : List (List Char)) (acc : List Char),
      t.foldl (fun acc v => if v.length < acc.length then v else acc) acc = acc ∨
      t.foldl (fun acc v => if v.length < acc.length then v else acc) acc ∈ t := by
  intro t
  induction t with
  | nil => intro acc; simp
  | cons v t ih =>
    intro acc
    simp only [List.foldl_cons]
    rcases ih (if v.length < acc.length then v else acc) with h | h
    · rw [h]
      by_cases hv : v.length < acc.length
      · right; simp [hv]
      · left; simp [hv]
    · right; exact List.mem_cons_of_mem _ h

theorem minFold_le :
    ∀ (t : List (List Char)) (acc : List Char),
      (t.foldl (fun acc v => if v.length < acc.length then v else acc) acc).length ≤ acc.length ∧
      ∀ v ∈ t,
        (t.foldl (fun acc v => if v.length < acc.length then v else acc) acc).length ≤ v.length := by
  intro t
  induction t with
  | nil => intro acc; simp
  | cons v t ih =>
    intro acc
    simp only [List.foldl_cons]
    obtain ⟨h1, h2⟩ := ih (if v.length < acc.length then v else acc)
    have hacc : (if v.length < acc.length then v else acc).length ≤ acc.length := by
      by_cases hv : v.length < acc.length
      · simp [hv]; omega
      · simp [hv]
    have hv' : (if v.length < acc.length then v else acc).length ≤ v.length := by
      by_cases hv : v.length < acc.length
      · simp [hv]
      · simp [hv]; omega
    refine ⟨h1.trans hacc, ?_⟩
    intro w hw
    rcases List.mem_cons.mp hw with hw1 | hw2
    · subst hw1; exact h1.trans hv'
    · exact h2 w hw2

theorem minFold_stay :
    ∀ (t : List (List Char)) (acc : List Char), (∀ v ∈ t, ¬ v.length < acc.length) →
      t.foldl (fun acc v => if v.length < acc.length then v else acc) acc = acc := by
  intro t
  induction t with
  | nil => intro acc _; simp
  | cons v t ih =>
    intro acc hall
    simp only [List.foldl_cons]
    rw [if_neg (hall v (List.mem_cons_self _ _))]
    exact ih acc (fun w hw => hall w (List.mem_cons_of_mem _ hw))

theorem minByLen_mem {l : List (List Char)} (h : l ≠ []) : minByLen l ∈ l := by
  cases l with
  | nil => exact absurd rfl h
  | cons v t =>
    show t.foldl (fun acc v => if v.length < acc.length then v else acc) v ∈ v :: t
    rcases minFold_mem t v with h1 | h1
    · rw [h1]; exact List.mem_cons_self _ _
    · exact List.mem_cons_of_mem _ h1

theorem minByLen_le {l : List (List Char)} :
    ∀ v ∈ l, (minByLen l).length ≤ v.length := by
  cases l with
  | nil => intro v hv; simp at hv
  | cons h t =>
    intro v hv
    show (t.foldl (fun acc v => if v.length < acc.length then v else acc) h).length ≤ v.length
    rcases List.mem_cons.mp hv with h1 | h2
    · subst h1; exact (minFold_le t v).1
    · exact (minFold_le t h).2 v h2

theorem minByLen_head {h : List Char} {t : List (List Char)}
    (hall : ∀ v ∈ t, ¬ v.length < h.length) : minByLen (h :: t) = h :=
  minFold_stay t h hall

theorem relation_ok (tbl : List Char → Option (String → String)) (fam : Family)
    (n1 n2 : String) (st1 st2 : PersonState)
    (h1 : dlookup fam.people n1 = some st1) (h2 : dlookup fam.people n2 = some st2) :
    relation tbl fam n1 n2 = Except.ok (relation_to tbl fam n1 n2) := by
  simp [relation, h1, h2]

theorem relation_to_none_iff (tbl : List Char → Option (String → String))
    (fam : Family) (a b : String) :
    relation_to tbl fam a b = none ↔
      sharedKeys (connections fam a) (connections fam b) = [] := by
  by_cases hsh : sharedKeys (connections fam a) (connections fam b) = []
  · simp [relation_to, hsh, lcrList]
  · have hlen : ¬ (lcrList (connections fam a) (connections fam b)
        (sharedKeys (connections fam a) (connections fam b))).length = 0 := by
      simp only [lcrList, List.length_map]
      exact fun hc => hsh (List.length_eq_zero.mp hc)
    simp only [relation_to, if_neg hlen]
    cases tbl (minByLen ((lcrList (connections fam a) (connections fam b)
        (sharedKeys (connections fam a) (connections fam b))).map Prod.snd)) with
    | none => simp [hsh]
    | some g => simp [hsh]

theorem sharedKeys_nil_iff (sc pc : List (String × List Char)) :
    sharedKeys sc pc = [] ↔
      ∀ k, ¬ (keyMem sc k = true ∧ keyMem pc k = true) := by
  unfold sharedKeys
  rw [List.filter_eq_nil_iff]
  constructor
  · intro h k hk
    exact absurd hk.2 (by simpa using h k ((keyMem_iff sc k).mp hk.1))
  · intro h a ha
    have h1 : keyMem sc a = true := (keyMem_iff sc a).mpr ha
    intro h2
    exact h a ⟨h1, by simpa using h2⟩

theorem lcr_val_shape (sc pc : List (String × List Char)) (sh : List String) :
    ∀ v ∈ (lcrList sc pc sh).map Prod.snd, ∃ x y, v = x ++ ':' :: y := by
  intro v hv
  simp only [lcrList, List.map_map, List.mem_map] at hv
  obtain ⟨k, _, he⟩ := hv
  exact ⟨(dlookup sc k).getD [], (dlookup pc k).getD [], he.symm⟩

theorem mem_dinsert {β : Type} :
    ∀ (l : List (String × β)) (k : String) (v : β) (e : String × β),
      e ∈ dinsert l k v → e ∈ l ∨ e = (k, v) := by
  intro l
  induction l with
  | nil => intro k v e he; simp [dinsert] at he; exact Or.inr he
  | cons hd t ih =>
    intro k v e he
    obtain ⟨k', v'⟩ := hd
    by_cases hk : k' = k
    · simp only [dinsert, if_pos hk] at he
      rcases List.mem_cons.mp he with h1 | h2
      · exact Or.inr h1
      · exact Or.inl (List.mem_cons_of_mem _ h2)
    · simp only [dinsert, if_neg hk] at he
      rcases List.mem_cons.mp he with h1 | h2
      · exact Or.inl (h1 ▸ List.mem_cons_self _ _)
      · rcases ih k v e h2 with h3 | h3
        · exact Or.inl (List.mem_cons_of_mem _ h3)
        · exact Or.inr h3

theorem mem_dupdate {β : Type} :
    ∀ (l : List (String × β)) (k : String) (f : β → β) (e : String × β),
      e ∈ dupdate l k f → e ∈ l ∨ ∃ v, (k, v) ∈ l ∧ e = (k, f v) := by
  intro l
  induction l with
  | nil => intro k f e he; simp [dupdate] at he
  | cons hd t ih =>
    intro k f e he
    obtain ⟨k', v'⟩ := hd
    by_cases hk : k' = k
    · subst hk
      simp only [dupdate, if_pos rfl] at he
      rcases List.mem_cons.mp he with h1 | h2
      · exact Or.inr ⟨v', List.mem_cons_self _ _, h1⟩
      · exact Or.inl (List.mem_cons_of_mem _ h2)
    · simp only [dupdate, if_neg hk] at he
      rcases List.mem_cons.mp he with h1 | h2
      · exact Or.inl (h1 ▸ List.mem_cons_self _ _)
      · rcases ih k f e h2 with h3 | ⟨v, hv, hev⟩
        · exact Or.inl (List.mem_cons_of_mem _ h3)
        · exact Or.inr ⟨v, List.mem_cons_of_mem _ hv, hev⟩

theorem initPeople_spouse_none (inds : List (String × String)) :
    ∀ e ∈ initPeople inds, e.2.spouse = none := by
  unfold initPeople
  suffices h : ∀ (acc : List (String × PersonState)),
      (∀ e ∈ acc, e.2.spouse = none) →
      ∀ e ∈ inds.foldl (fun acc kv => dinsert acc kv.1 ⟨kv.2, [], none⟩) acc,
        e.2.spouse = none by
    exact h [] (by simp)
  induction inds with
  | nil => intro acc hacc; simpa using hacc
  | cons kv t ih =>
    intro acc hacc
    simp only [List.foldl_cons]
    apply ih
    intro e he
    rcases mem_dinsert acc kv.1 ⟨kv.2, [], none⟩ e he with h1 | h1
    · exact hacc e h1
    · rw [h1]

theorem addParentsFor_spouse_none (person : String) :
    ∀ (plist : List String) (people res : List (String × PersonState)),
      addParentsFor person plist people = Except.ok res →
      (∀ e ∈ people, e.2.spouse = none) → ∀ e ∈ res, e.2.spouse = none := by
  intro plist
  induction plist with
  | nil =>
    intro people res hok hall
    simp only [addParentsFor] at hok
    cases hok
    exact hall
  | cons parent rest ih =>
    intro people res hok hall
    simp only [addParentsFor] at hok
    cases hd : dlookup people parent with
    | none => rw [hd] at hok; cases hok
    | some st =>
      rw [hd] at hok
      refine ih _ res hok ?_
      intro e he
      rcases mem_dupdate people person _ e he with h1 | ⟨v, hv, hev⟩
      · exact hall e h1
      · rw [hev]
        exact hall (person, v) hv

theorem addAllParents_spouse_none :
    ∀ (pm : List (String × List String)) (people res : List (String × PersonState)),
      addAllParents pm people = Except.ok res →
      (∀ e ∈ people, e.2.spouse = none) → ∀ e ∈ res, e.2.spouse = none := by
  intro pm
  induction pm with
  | nil =>
    intro people res hok hall
    simp only [addAllParents] at hok
    cases hok
    exact hall
  | cons hd rest ih =>
    intro people res hok hall
    obtain ⟨person, plist⟩ := hd
    simp only [addAllParents] at hok
    cases hd1 : dlookup people person with
    | none => rw [hd1] at hok; cases hok
    | some st =>
      rw [hd1] at hok
      cases hd2 : addParentsFor person plist people with
      | error e => rw [hd2] at hok; cases hok
      | ok people' =>
        rw [hd2] at hok
        exact ih people' res hok (addParentsFor_spouse_none person plist people people' hd2 hall)

theorem spouseOf_none_of_all (people : List (String × PersonState)) (x : String)
    (hall : ∀ e ∈ people, e.2.spouse = none) : spouseOf ⟨people⟩ x = none := by
  unfold spouseOf
  cases hd : dlookup (Family.mk people).people x with
  | none => rfl
  | some st =>
    have := hall (x, st) (dlookup_mem hd)
    simpa using this

theorem spouse_after_couple (people : List (String × PersonState)) (a b : String)
    (sta stb : PersonState)
    (ha : dlookup people a = some sta) (hb : dlookup people b = some stb) :
    ∀ x, spouseOf ⟨dupdate (dupdate people a (fun st => { st with spouse := some b }))
          b (fun st => { st with spouse := some a })⟩ x =
        if x = b then some a else if x = a then some b else spouseOf ⟨people⟩ x := by
  intro x
  unfold spouseOf
  simp only [dlookup_dupdate]
  by_cases hxb : x = b
  · subst hxb
    by_cases hba : x = a
    · subst hba
      simp [ha]
    · simp [hb, hba]
  · by_cases hxa : x = a
    · subst hxa
      simp [ha, hxb]
    · simp [hxb, hxa]

theorem addCouples_sym :
    ∀ (cs : List (List String)) (people res : List (String × PersonState)),
      addCouples cs people = Except.ok res →
      List.Pairwise (fun p q => ∀ x, x ∈ p → x ∉ q) cs →
      (∀ x y, spouseOf ⟨people⟩ x = some y → spouseOf ⟨people⟩ y = some x) →
      (∀ x y, spouseOf ⟨people⟩ x = some y → ∀ p ∈ cs, x ∉ p ∧ y ∉ p) →
      ∀ x y, spouseOf ⟨res⟩ x = some y → spouseOf ⟨res⟩ y = some x := by
  intro cs
  induction cs with
  | nil =>
    intro people res hok _ hsym _
    simp only [addCouples] at hok
    cases hok
    exact hsym
  | cons pr rest ih =>
    intro people res hok hpw hsym huntouched
    match pr with
    | [] =>
      simp only [addCouples] at hok
      exact ih people res hok (List.pairwise_cons.mp hpw).2 hsym
        (fun x y hxy p hp => huntouched x y hxy p (List.mem_cons_of_mem _ hp))
    | [a] =>
      simp only [addCouples] at hok
      cases hd : dlookup people a with
      | none => rw [hd] at hok; cases hok
      | some st => rw [hd] at hok; cases hok
    | a :: b :: tl =>
      simp only [addCouples] at hok
      cases hda : dlookup people a with
      | none => rw [hda] at hok; cases hok
      | some sta =>
        rw [hda] at hok
        cases hdb : dlookup people b with
        | none => rw [hdb] at hok; cases hok
        | some stb =>
          rw [hdb] at hok
          have hform := spouse_after_couple people a b sta stb hda hdb
          have hamem : a ∈ a :: b :: tl := List.mem_cons_self _ _
          have hbmem : b ∈ a :: b :: tl := List.mem_cons_of_mem _ (List.mem_cons_self _ _)
          have hdisj : ∀ q ∈ rest, ∀ z, z ∈ a :: b :: tl → z ∉ q :=
            fun q hq z hz => (List.pairwise_cons.mp hpw).1 q hq z hz
          refine ih _ res hok (List.pairwise_cons.mp hpw).2 ?_ ?_
          · intro x y hxy
            rw [hform] at hxy
            by_cases hxb : x = b
            · rw [if_pos hxb] at hxy
              have hy : y = a := by cases hxy; rfl
              subst hy
              rw [hform]
              by_cases hab : y = b
              · rw [if_pos hab]
                rw [hxb, ← hab]
              · rw [if_neg hab, if_pos rfl, hxb]
            · rw [if_neg hxb] at hxy
              by_cases hxa : x = a
              · rw [if_pos hxa] at hxy
                have hy : y = b := by cases hxy; rfl
                subst hy
                rw [hform, if_pos rfl, hxa]
              · rw [if_neg hxa] at hxy
                have hnota : y ≠ a := by
                  intro hc
                  exact ((huntouched x y hxy _ (List.mem_cons_self _ _)).2) (hc ▸ hamem)
                have hnotb : y ≠ b := by
                  intro hc
                  exact ((huntouched x y hxy _ (List.mem_cons_self _ _)).2) (hc ▸ hbmem)
                rw [hform, if_neg hnotb, if_neg hnota]
                exact hsym x y hxy
          · intro x y hxy q hq
            rw [hform] at hxy
            by_cases hxb : x = b
            · rw [if_pos hxb] at hxy
              have hy : y = a := by cases hxy; rfl
              exact ⟨fun hc => hdisj q hq b hbmem (hxb ▸ hc),
                fun hc => hdisj q hq a hamem (hy ▸ hc)⟩
            · rw [if_neg hxb] at hxy
              by_cases hxa : x = a
              · rw [if_pos hxa] at hxy
                have hy : y = b := by cases hxy; rfl
                exact ⟨fun hc => hdisj q hq a hamem (hxa ▸ hc),
                  fun hc => hdisj q hq b hbmem (hy ▸ hc)⟩
              · rw [if_neg hxa] at hxy
                obtain ⟨h1, h2⟩ := huntouched x y hxy q (List.mem_cons_of_mem _ hq)
                exact ⟨h1, h2⟩

theorem addCouples_len1_fails :
    ∀ (cs : List (List String)) (people : List (String × PersonState)) (p : List String),
      p ∈ cs → p.length = 1 → ∃ e, addCouples cs people = Except.error e := by
  intro cs
  induction cs with
  | nil => intro people p hp _; simp at hp
  | cons q rest ih =>
    intro people p hp hlen
    match q with
    | [] =>
      simp only [addCouples]
      rcases List.mem_cons.mp hp with h1 | h2
      · rw [h1] at hlen; simp at hlen
      · exact ih people p h2 hlen
    | [a] =>
      simp only [addCouples]
      cases hd : dlookup people a with
      | none => exact ⟨Err.keyError a, rfl⟩
      | some st => exact ⟨Err.indexError, rfl⟩
    | a :: b :: tl =>
      simp only [addCouples]
      cases hda : dlookup people a with
      | none => exact ⟨Err.keyError a, rfl⟩
      | some sta =>
        cases hdb : dlookup people b with
        | none => exact ⟨Err.keyError b, rfl⟩
        | some stb =>
          rcases List.mem_cons.mp hp with h1 | h2
          · rw [h1] at hlen; simp at hlen
          · exact ih _ p h2 hlen

theorem addCouples_skip_empty :
    ∀ (pre post : List (List String)) (people : List (String × PersonState)),
      addCouples (pre ++ [] :: post) people = addCouples (pre ++ post) people := by
  intro pre
  induction pre with
  | nil => intro post people; simp [addCouples]
  | cons q rest ih =>
    intro post people
    match q with
    | [] => simp only [List.cons_append, addCouples]; exact ih post people
    | [a] =>
      simp only [List.cons_append, addCouples]
    | a :: b :: tl =>
      simp only [List.cons_append, addCouples]
      cases hda : dlookup people a with
      | none => rfl
      | some sta =>
        cases hdb : dlookup people b with
        | none => rfl
        | some stb => exact ih post _

theorem relation_to_self (tbl : List Char → Option (String → String)) (fam : Family)
    (n : String) :
    relation_to tbl fam n n = some (match tbl [':'] with
      | some byGender => byGender (genderOf fam n)
      | none => "distant relative") := by
  obtain ⟨t, hct⟩ := connections_head fam n
  have hkmL : keyMem ((n, ([] : List Char)) :: t) n = true := by
    simp [keyMem, dlookup]
  have hdlL : dlookup ((n, ([] : List Char)) :: t) n = some ([] : List Char) := by
    simp [dlookup]
  have hshk : sharedKeys ((n, ([] : List Char)) :: t) ((n, ([] : List Char)) :: t) =
      n :: (t.map Prod.fst).filter (fun k => keyMem ((n, ([] : List Char)) :: t) k) := by
    unfold sharedKeys
    rw [List.map_cons, List.filter_cons]
    simp [hkmL]
  have hlcr : lcrList ((n, ([] : List Char)) :: t) ((n, ([] : List Char)) :: t)
      (sharedKeys ((n, ([] : List Char)) :: t) ((n, ([] : List Char)) :: t)) =
      (n, [':']) :: lcrList ((n, ([] : List Char)) :: t) ((n, ([] : List Char)) :: t)
        ((t.map Prod.fst).filter (fun k => keyMem ((n, ([] : List Char)) :: t) k)) := by
    rw [hshk]
    unfold lcrList
    rw [List.map_cons]
    simp [hdlL]
  have hlen : ¬ (lcrList ((n, ([] : List Char)) :: t) ((n, ([] : List Char)) :: t)
      (sharedKeys ((n, ([] : List Char)) :: t) ((n, ([] : List Char)) :: t))).length = 0 := by
    rw [hlcr]; simp
  have hmin : minByLen ((lcrList ((n, ([] : List Char)) :: t) ((n, ([] : List Char)) :: t)
      (sharedKeys ((n, ([] : List Char)) :: t)
        ((n, ([] : List Char)) :: t))).map Prod.snd) = [':'] := by
    rw [hlcr, List.map_cons]
    apply minByLen_head
    intro v hv
    obtain ⟨x, y, hxy⟩ := lcr_val_shape _ _ _ v hv
    subst hxy
    simp [List.length_append]
  simp only [relation_to, hct, if_neg hlen, hmin]
  cases tbl [':'] with
  | none => rfl
  | some byGender => rfl

theorem buildFamily_split (d : Dataset) (p1 : List (String × PersonState))
    (h1 : addAllParents d.parents (initPeople d.individuals) = Except.ok p1) :
    buildFamily d = match addCouples d.couples p1 with
      | Except.error e => Except.error e
      | Except.ok p2 => Except.ok ⟨p2⟩ := by
  unfold buildFamily
  rw [h1]

theorem buildFamily_split_err (d : Dataset) (e : Err)
    (h1 : addAllParents d.parents (initPeople d.individuals) = Except.error e) :
    buildFamily d = Except.error e := by
  unfold buildFamily
  rw [h1]

/-- C1, counterexample.  In `famA` the individual "y" is reachable from "x" by
the valid four-step path "PPPS" (one spouse step) but does not appear as a key
of the mapping, so the completeness part of the claim fails.  In `famB` the
same "y" does appear as a key, but with the recorded five-step path "PPPPP"
while the strictly shorter valid path "PPPS" exists, so the minimality part
fails as well. -/
theorem claim_C1_counterexample :
    (ValidPath famA "x" ['P', 'P', 'P', 'S'] "y" ∧
      dlookup (connections famA "x") "y" = none) ∧
    (dlookup (connections famB "x") "y" = some ['P', 'P', 'P', 'P', 'P'] ∧
      ValidPath famB "x" ['P', 'P', 'P', 'S'] "y" ∧
      List.length ['P', 'P', 'P', 'S'] < List.length ['P', 'P', 'P', 'P', 'P']) :=
  ⟨⟨by decide, by decide⟩, by decide, by decide, by decide⟩

/-- C1 (amended): every path recorded by `Person.connections` from `s` for a
key `k` is a valid path from `s` to `k` containing at most one spouse step.
The original claim's minimality and key-set completeness parts are refuted by
`claim_C1_counterexample`. -/
theorem claim_C1 (fam : Family) (s k : String) (v : List Char)
    (h : (k, v) ∈ connections fam s) : ValidPath fam s v k :=
  connections_entries fam s (k, v) h

theorem claim_C1_witness : ValidPath famW "b" ['P'] "a" :=
  claim_C1 famW "b" "a" ['P'] (by decide)

/-- C2: whenever both names are registered and the two reachable sets
intersect, `relation` returns the term-table entry (by A's gender) for a
combined code of minimum length among all shared individuals' combined codes,
falling back to "distant relative" when the table has no entry for it. -/
theorem claim_C2 (tbl : List Char → Option (String → String)) (fam : Family)
    (a b : String) (sta stb : PersonState)
    (ha : dlookup fam.people a = some sta) (hb : dlookup fam.people b = some stb)
    (hshared : ∃ k, keyMem (connections fam a) k = true ∧
      keyMem (connections fam b) k = true) :
    ∃ code, code ∈ combinedCodes fam a b ∧
      (∀ c ∈ combinedCodes fam a b, code.length ≤ c.length) ∧
      relation tbl fam a b = Except.ok (some (match tbl code with
        | some byGender => byGender sta.gender
        | none => "distant relative")) := by
  obtain ⟨k, hk1, hk2⟩ := hshared
  have hshne : sharedKeys (connections fam a) (connections fam b) ≠ [] := by
    intro hc
    exact (sharedKeys_nil_iff _ _).mp hc k ⟨hk1, hk2⟩
  have hlcrne : (lcrList (connections fam a) (connections fam b)
      (sharedKeys (connections fam a) (connections fam b))).map Prod.snd ≠ [] := by
    simp only [lcrList, List.map_map, ne_eq, List.map_eq_nil_iff]
    exact hshne
  have hlen : ¬ (lcrList (connections fam a) (connections fam b)
      (sharedKeys (connections fam a) (connections fam b))).length = 0 := by
    simp only [lcrList, List.length_map]
    exact fun hc => hshne (List.length_eq_zero.mp hc)
  have hg : genderOf fam a = sta.gender := by simp [genderOf, ha]
  refine ⟨minByLen ((lcrList (connections fam a) (connections fam b)
      (sharedKeys (connections fam a) (connections fam b))).map Prod.snd),
    minByLen_mem hlcrne, fun c hc => minByLen_le c hc, ?_⟩
  rw [relation_ok tbl fam a b sta stb ha hb]
  simp only [relation_to, if_neg hlen, hg]
  cases htb : tbl (minByLen ((lcrList (connections fam a) (connections fam b)
      (sharedKeys (connections fam a) (connections fam b))).map Prod.snd)) with
  | none => rfl
  | some byGender => rfl

theorem claim_C2_witness :
    ∃ code, code ∈ combinedCodes famW "a" "b" ∧
      (∀ c ∈ combinedCodes famW "a" "b", code.length ≤ c.length) ∧
      relation tbl0 famW "a" "b" = Except.ok (some "distant relative") :=
  claim_C2 tbl0 famW "a" "b" ⟨"F", [], none⟩ ⟨"M", ["a"], none⟩ rfl rfl
    ⟨"a", by decide, by decide⟩

/-- C3: for registered names `a` and `b`, `relation` returns the no-relation
marker `None` exactly when the key sets of the two BFS mappings are disjoint.
The source's dead comparison `sharedkeys.__len__ == 0` does not affect this:
the only reachable `None` return is the `len(lcr) == 0` check. -/
theorem claim_C3 (tbl : List Char → Option (String → String)) (fam : Family)
    (a b : String) (sta stb : PersonState)
    (ha : dlookup fam.people a = some sta) (hb : dlookup fam.people b = some stb) :
    relation tbl fam a b = Except.ok none ↔
      ∀ k, ¬ (keyMem (connections fam a) k = true ∧
        keyMem (connections fam b) k = true) := by
  rw [relation_ok tbl fam a b sta stb ha hb]
  simp only [Except.ok.injEq]
  rw [relation_to_none_iff, sharedKeys_nil_iff]

theorem claim_C3_witness : relation tbl0 famW "a" "b" ≠ Except.ok none := by
  intro hc
  exact (claim_C3 tbl0 famW "a" "b" ⟨"F", [], none⟩ ⟨"M", ["a"], none⟩
    rfl rfl).mp hc "a" ⟨by decide, by decide⟩

/-- C4: every path value produced by `Person.connections` contains at most one
`S` character (the spouse step is only appended to a path without one). -/
theorem claim_C4 (fam : Family) (s k : String) (v : List Char)
    (h : (k, v) ∈ connections fam s) : v.count 'S' ≤ 1 :=
  (connections_entries fam s (k, v) h).2

theorem claim_C4_witness : (['P'] : List Char).count 'S' ≤ 1 :=
  claim_C4 famW "b" "a" ['P'] (by decide)

/-- C5, counterexample.  For the dataset `D5`, whose couples list mentions "a"
twice, construction succeeds but leaves asymmetric spouse links: "b"'s spouse
is "a" while "a"'s spouse is "c". -/
theorem claim_C5_counterexample :
    buildFamily D5 = Except.ok (famOf (buildFamily D5)) ∧
    spouseOf (famOf (buildFamily D5)) "b" = some "a" ∧
    spouseOf (famOf (buildFamily D5)) "a" = some "c" ∧
    spouseOf (famOf (buildFamily D5)) "a" ≠ some "b" :=
  ⟨rfl, by decide, by decide, by decide⟩

/-- C5 (amended): spouse links are symmetric after construction from any
dataset whose couple entries are pairwise disjoint (no individual occurs in
two couple entries); the subsequent core operations never mutate the family
(they are read-only), so the invariant persists.  Without the disjointness
restriction the claim fails, see `claim_C5_counterexample`. -/
theorem claim_C5 (d : Dataset) (fam : Family) (hok : buildFamily d = Except.ok fam)
    (hdisj : List.Pairwise (fun p q => ∀ x, x ∈ p → x ∉ q) d.couples) :
    ∀ x y, spouseOf fam x = some y → spouseOf fam y = some x := by
  cases h1 : addAllParents d.parents (initPeople d.individuals) with
  | error e =>
    rw [buildFamily_split_err d e h1] at hok
    exact Except.noConfusion hok
  | ok p1 =>
    rw [buildFamily_split d p1 h1] at hok
    cases h2 : addCouples d.couples p1 with
    | error e =>
      rw [h2] at hok
      exact Except.noConfusion hok
    | ok p2 =>
      rw [h2] at hok
      have hok3 : Except.ok (Family.mk p2) = Except.ok fam := hok
      injection hok3 with hf
      subst hf
      have hnone : ∀ e ∈ p1, e.2.spouse = none :=
        addAllParents_spouse_none d.parents (initPeople d.individuals) p1 h1
          (initPeople_spouse_none d.individuals)
      have hsym0 : ∀ x y, spouseOf ⟨p1⟩ x = some y → spouseOf ⟨p1⟩ y = some x := by
        intro x y hxy
        rw [spouseOf_none_of_all p1 x hnone] at hxy
        cases hxy
      have hunt : ∀ x y, spouseOf ⟨p1⟩ x = some y → ∀ p ∈ d.couples, x ∉ p ∧ y ∉ p := by
        intro x y hxy
        rw [spouseOf_none_of_all p1 x hnone] at hxy
        cases hxy
      exact addCouples_sym d.couples p1 p2 h2 hdisj hsym0 hunt

theorem claim_C5_witness : spouseOf (famOf (buildFamily D5w)) "b" = some "a" :=
  claim_C5 D5w (famOf (buildFamily D5w)) rfl (by simp [D5w]) "a" "b" (by decide)

/-- C6: calling `relation` with an unregistered name in either position fails
with a `KeyError` (the spec's `UnknownIndividual`) on one of the two names —
the unregistered one, or the first when both are unregistered — and never
returns a term or the no-relation marker. -/
theorem claim_C6 (tbl : List Char → Option (String → String)) (fam : Family)
    (n1 n2 : String)
    (h : dlookup fam.people n1 = none ∨ dlookup fam.people n2 = none) :
    ∃ m, (m = n1 ∨ m = n2) ∧ dlookup fam.people m = none ∧
      relation tbl fam n1 n2 = Except.error (Err.keyError m) := by
  rcases h with h1 | h2
  · exact ⟨n1, Or.inl rfl, h1, by simp [relation, h1]⟩
  · cases hd : dlookup fam.people n1 with
    | none => exact ⟨n1, Or.inl rfl, hd, by simp [relation, hd]⟩
    | some st => exact ⟨n2, Or.inr rfl, h2, by simp [relation, hd, h2]⟩

theorem claim_C6_witness :
    ∃ m, (m = "zz" ∨ m = "a") ∧ dlookup famW.people m = none ∧
      relation tbl0 famW "zz" "a" = Except.error (Err.keyError m) :=
  claim_C6 tbl0 famW "zz" "a" (Or.inl (by decide))

/-- C7: the BFS of `Person.connections` drains its queue within `bfsFuel`
iterations on every family, including families whose parent relation is
cyclic: a person is enqueued only together with its first insertion into
`cdict`, so the loop runs at most once per candidate name. -/
theorem claim_C7 (fam : Family) (s : String) :
    (bfsAux fam (bfsFuel fam s) [(s, [])] [s]).isSome = true :=
  bfsAux_total fam s

/-- C9: the state-threaded `connections` and `relation_to` return the heap of
`Person` records unchanged: both only read names, genders, parents and
spouses. -/
theorem claim_C9 (fam : Family) (s : String)
    (tbl : List Char → Option (String → String)) (a b : String) :
    (connectionsSt fam s).2 = fam ∧ (relation_toSt tbl fam a b).2 = fam :=
  ⟨connectionsSt_frame fam s, relation_toSt_frame tbl fam a b⟩

/-- C10: for a registered name `n`, `relation(graph, n, n)` never returns the
no-relation marker: the person is a key of both mappings, the combined code
":" is selected (it is the unique shortest), and the result is the table's
term for ":" under the person's gender, or "distant relative" when the table
lacks that code. -/
theorem claim_C10 (tbl : List Char → Option (String → String)) (fam : Family)
    (n : String) (st : PersonState) (h : dlookup fam.people n = some st) :
    relation tbl fam n n ≠ Except.ok none ∧
    relation tbl fam n n = Except.ok (some (match tbl [':'] with
      | some byGender => byGender st.gender
      | none => "distant relative")) := by
  have hg : genderOf fam n = st.gender := by simp [genderOf, h]
  have hr := relation_to_self tbl fam n
  rw [hg] at hr
  rw [relation_ok tbl fam n n st st h h, hr]
  refine ⟨?_, rfl⟩
  cases tbl [':'] <;> simp

theorem claim_C10_witness :
    relation tbl0 famW "a" "a" ≠ Except.ok none ∧
    relation tbl0 famW "a" "a" = Except.ok (some "distant relative") := by
  have h := claim_C10 tbl0 famW "a" ⟨"F", [], none⟩ rfl
  exact ⟨h.1, h.2⟩

/-- C8: a couples entry with exactly one identifier always makes construction
fail (it is never skipped); the failure is `IndexError` at `pair[1]` when the
lone identifier is registered, as on `D8` (a `KeyError` fires first when it is
not); and removing a zero-length entry never changes the construction
result. -/
theorem claim_C8 :
    (∀ (d : Dataset) (p : List String), p ∈ d.couples → p.length = 1 →
      ∃ e, buildFamily d = Except.error e) ∧
    (∀ (ind : List (String × String)) (par : List (String × List String))
      (pre post : List (List String)),
      buildFamily ⟨ind, par, pre ++ [] :: post⟩ = buildFamily ⟨ind, par, pre ++ post⟩) ∧
    buildFamily D8 = Except.error Err.indexError := by
  refine ⟨?_, ?_, rfl⟩
  · intro d p hp hlen
    cases h1 : addAllParents d.parents (initPeople d.individuals) with
    | error e => exact ⟨e, buildFamily_split_err d e h1⟩
    | ok p1 =>
      obtain ⟨e, he⟩ := addCouples_len1_fails d.couples p1 p hp hlen
      refine ⟨e, ?_⟩
      rw [buildFamily_split d p1 h1, he]
  · intro ind par pre post
    cases h1 : addAllParents par (initPeople ind) with
    | error e =>
      rw [buildFamily_split_err ⟨ind, par, pre ++ [] :: post⟩ e h1,
        buildFamily_split_err ⟨ind, par, pre ++ post⟩ e h1]
    | ok p1 =>
      rw [buildFamily_split ⟨ind, par, pre ++ [] :: post⟩ p1 h1,
        buildFamily_split ⟨ind, par, pre ++ post⟩ p1 h1]
      show (match addCouples (pre ++ [] :: post) p1 with
          | Except.error e => (Except.error e : Except Err Family)
          | Except.ok p2 => Except.ok ⟨p2⟩) =
        (match addCouples (pre ++ post) p1 with
          | Except.error e => (Except.error e : Except Err Family)
          | Except.ok p2 => Except.ok ⟨p2⟩)
      rw [addCouples_skip_empty]

theorem claim_C8_witness :
    (∃ e, buildFamily D8 = Except.error e) ∧
    buildFamily D8 = Except.error Err.indexError :=
  ⟨claim_C8.1 D8 ["a"] (by decide) rfl, claim_C8.2.2⟩

end Kinship
